import Mathlib

/-!
Verification development for the letter-cover solver in
`project/brute_force_letter_solver.py` (function `find_best_cover` and its
helpers).  The Python code is shallowly embedded:

* a Python `Counter` / dict is an insertion-ordered association list
  (`Counts`), with `get` returning `0` for a missing key exactly as
  `Counter.__getitem__` / `dict.get(ch, 0)` do;
* strings are lists of characters (`Word`);
* wall-clock time is made explicit: a `clock : Nat → Int` gives the value of
  the n-th call to `time.time()`, and a tick counter threads the number of
  clock reads through the search, so timeout behaviour is observable;
* the in-place mutation that the greedy-seed phase performs on the caller's
  `letter_counts` is made explicit in the `finalCounts` field of the result;
* the recursive `dfs` with its interior `for` loop is written as a
  structurally recursive loop over the remaining suffix of the sorted
  candidate list (`words[idx:]`), with the body of the recursive `dfs` call
  inlined at its single call site so that the recursion is structural; the
  wrapper `dfs` below is the un-inlined form and agrees definitionally.
-/

/-- A word, as a list of characters (Python `str`). -/
abbrev Word := List Char

/-- A Python `Counter` / dict from characters to integer counts: an
insertion-ordered association list. -/
abbrev Counts := List (Char × Int)

namespace Counts

/-- Python `Counter.__getitem__` / `dict.get(ch, 0)`: the stored value of the
first entry with the given key, `0` if absent. -/
def get : Counts → Char → Int
  | [], _ => 0
  | p :: rest, ch => if p.1 = ch then p.2 else get rest ch

/-- Python `m[ch] = v`: replace the value of the first entry with key `ch`,
or append a fresh entry if the key is absent (dict assignment). -/
def upd : Counts → Char → Int → Counts
  | [], ch, v => [(ch, v)]
  | p :: rest, ch, v => if p.1 = ch then (ch, v) :: rest else p :: upd rest ch v

/-- Python `sum(m.values())`. -/
def total (m : Counts) : Int := (m.map Prod.snd).sum

/-- The keys of the mapping, in order. -/
def keyList (m : Counts) : List Char := m.map Prod.fst

end Counts

/-- The letter multiset of `w` at `ch`: `Counter(w)[ch]`. -/
def wCount (w : Word) (ch : Char) : Nat := w.count ch

/-- Python `all(wc[ch] <= counts.get(ch, 0) for ch in wc)`: every letter of
`w` is affordable from the pool `m`. -/
def canAfford (m : Counts) (w : Word) : Bool :=
  w.all fun ch => decide ((wCount w ch : Int) ≤ m.get ch)

/-- Python `for ch, c in wc.items(): counts[ch] -= c`: subtract the letter
multiset of `w` from the pool, one distinct letter at a time. -/
def subtractWord (m : Counts) (w : Word) : Counts :=
  w.dedup.foldl (fun acc ch => acc.upd ch (acc.get ch - (wCount w ch : Int))) m

/-- Total length of a list of words. -/
def lenSum (l : List Word) : Nat := (l.map List.length).sum

/-- Total number of occurrences of the letter `ch` across a list of words. -/
def occSum (l : List Word) (ch : Char) : Nat := (l.map fun w => wCount w ch).sum

/-- The comparator of `sorted(words, key=len, reverse=True)`: `a` may come
before `b` iff `b` is not longer than `a`. -/
def byLenDesc (a b : Word) : Prop := b.length ≤ a.length

instance : DecidableRel byLenDesc := fun _ _ => inferInstanceAs (Decidable (_ ≤ _))

instance : IsTotal Word byLenDesc := ⟨fun a b => (le_total b.length a.length)⟩

instance : IsTrans Word byLenDesc := ⟨fun _ _ _ hab hbc => le_trans hbc hab⟩

/-- Python `sorted(words, key=len, reverse=True)`: stable sort by descending
length (Python's sort is stable; `reverse=True` keeps ties in input order). -/
def sortDesc (ws : List Word) : List Word := ws.insertionSort byLenDesc

/-- The record `{"used": _, "subset": _}` holding the best solution so far. -/
structure Best where
  used : Nat
  subset : List Word
deriving Repr, DecidableEq

/-- The greedy seed: the first word of the (sorted) candidate list that is
affordable from the pool. -/
def greedySeed (ws : List Word) (m : Counts) : Option Word :=
  ws.find? fun w => canAfford m w

/-- The body of the `for i in range(idx, n)` loop of `dfs`, over the suffix
`words[idx:]` of the sorted candidate list.  Skips a word whose length
exceeds the total remaining letters, skips an unaffordable word, and
otherwise recurses into `dfs(i + 1, ...)` with the word's letters removed —
the body of that recursive `dfs` call (deadline check, suffix-sum prune,
best update, then its own loop) is inlined here so the recursion is
structural; the wrapper `dfs` below restates it un-inlined. -/
def dfsLoop (deadline : Int) (clock : Nat → Int) :
    List Word → Counts → List Word → Nat → Best → Nat → Best × Nat
  | [], _, _, _, best, tick => (best, tick)
  | w :: rest, counts, chosen, used, best, tick =>
    if (w.length : Int) > counts.total then
      dfsLoop deadline clock rest counts chosen used best tick
    else if canAfford counts w then
      dfsLoop deadline clock rest counts chosen used
        (if clock tick > deadline then (best, tick + 1)
         else if used + w.length + lenSum rest ≤ best.used then (best, tick + 1)
         else dfsLoop deadline clock rest (subtractWord counts w) (chosen ++ [w])
           (used + w.length)
           (if best.used < used + w.length then ⟨used + w.length, chosen ++ [w]⟩ else best)
           (tick + 1)).1
        (if clock tick > deadline then (best, tick + 1)
         else if used + w.length + lenSum rest ≤ best.used then (best, tick + 1)
         else dfsLoop deadline clock rest (subtractWord counts w) (chosen ++ [w])
           (used + w.length)
           (if best.used < used + w.length then ⟨used + w.length, chosen ++ [w]⟩ else best)
           (tick + 1)).2
    else
      dfsLoop deadline clock rest counts chosen used best tick

/-- One `dfs(idx, counts, chosen, used)` node: deadline check, suffix-sum
prune, best-solution update, then the loop over `words[idx:]` (`rest`).
Returns the updated best record and the updated count of clock reads. -/
def dfs (deadline : Int) (clock : Nat → Int) (rest : List Word) (counts : Counts)
    (chosen : List Word) (used : Nat) (best : Best) (tick : Nat) : Best × Nat :=
  if clock tick > deadline then (best, tick + 1)
  else if used + lenSum rest ≤ best.used then (best, tick + 1)
  else
    dfsLoop deadline clock rest counts chosen used
      (if best.used < used then ⟨used, chosen⟩ else best) (tick + 1)

/-- The observable outcome of one `find_best_cover` call: the returned pair
`(best_subset, used)`, the caller's `letter_counts` as left after the call
(the greedy-seed phase mutates it in place), and the number of `time.time()`
reads performed. -/
structure FBCResult where
  subset : List Word
  used : Nat
  finalCounts : Counts
  ticks : Nat
deriving Repr, DecidableEq

/-- Assemble an `FBCResult` from the final pool state and the outcome of the
root `dfs` call. -/
def mkResult (final : Counts) (p : Best × Nat) : FBCResult :=
  ⟨p.1.subset, p.1.used, final, p.2⟩

/-- Embedding of `find_best_cover(words, letter_counts, timeout)`.  The
deadline is
`time.time() + timeout` (clock read 0); the candidate list is sorted by
descending length (stable); the greedy seed is the first affordable word,
whose letters are subtracted from `letter_counts` in place; then the DFS
runs from index 0 of the sorted list on a copy of the (post-seed) pool. -/
def find_best_cover (words : List Word) (letter_counts : Counts) (timeout : Int)
    (clock : Nat → Int) : FBCResult :=
  match greedySeed (sortDesc words) letter_counts with
  | some w =>
    mkResult (subtractWord letter_counts w)
      (dfs (clock 0 + timeout) clock (sortDesc words) (subtractWord letter_counts w)
        [w] w.length ⟨w.length, [w]⟩ 1)
  | none =>
    mkResult letter_counts
      (dfs (clock 0 + timeout) clock (sortDesc words) letter_counts [] 0 ⟨0, []⟩ 1)

/-- The greedy-seed result alone: the subset and letters-used recorded by the
seed phase before any DFS exploration. -/
def seedResult (words : List Word) (m : Counts) : List Word × Nat :=
  match greedySeed (sortDesc words) m with
  | some w => ([w], w.length)
  | none => ([], 0)

/-- Variant of `dfsLoop` with the cheap length pre-check
(`len(w) > sum(counts.values())`) removed; otherwise identical. -/
def dfsLoopNP (deadline : Int) (clock : Nat → Int) :
    List Word → Counts → List Word → Nat → Best → Nat → Best × Nat
  | [], _, _, _, best, tick => (best, tick)
  | w :: rest, counts, chosen, used, best, tick =>
    if canAfford counts w then
      dfsLoopNP deadline clock rest counts chosen used
        (if clock tick > deadline then (best, tick + 1)
         else if used + w.length + lenSum rest ≤ best.used then (best, tick + 1)
         else dfsLoopNP deadline clock rest (subtractWord counts w) (chosen ++ [w])
           (used + w.length)
           (if best.used < used + w.length then ⟨used + w.length, chosen ++ [w]⟩ else best)
           (tick + 1)).1
        (if clock tick > deadline then (best, tick + 1)
         else if used + w.length + lenSum rest ≤ best.used then (best, tick + 1)
         else dfsLoopNP deadline clock rest (subtractWord counts w) (chosen ++ [w])
           (used + w.length)
           (if best.used < used + w.length then ⟨used + w.length, chosen ++ [w]⟩ else best)
           (tick + 1)).2
    else
      dfsLoopNP deadline clock rest counts chosen used best tick

/-- Node function `dfs` built on the pre-check-free loop. -/
def dfsNP (deadline : Int) (clock : Nat → Int) (rest : List Word) (counts : Counts)
    (chosen : List Word) (used : Nat) (best : Best) (tick : Nat) : Best × Nat :=
  if clock tick > deadline then (best, tick + 1)
  else if used + lenSum rest ≤ best.used then (best, tick + 1)
  else
    dfsLoopNP deadline clock rest counts chosen used
      (if best.used < used then ⟨used, chosen⟩ else best) (tick + 1)

/-- Solver `find_best_cover` built on the pre-check-free search. -/
def find_best_cover_np (words : List Word) (letter_counts : Counts) (timeout : Int)
    (clock : Nat → Int) : FBCResult :=
  match greedySeed (sortDesc words) letter_counts with
  | some w =>
    mkResult (subtractWord letter_counts w)
      (dfsNP (clock 0 + timeout) clock (sortDesc words) (subtractWord letter_counts w)
        [w] w.length ⟨w.length, [w]⟩ 1)
  | none =>
    mkResult letter_counts
      (dfsNP (clock 0 + timeout) clock (sortDesc words) letter_counts [] 0 ⟨0, []⟩ 1)

/-! ### Unfolding lemmas for the search loop -/

theorem dfsLoop_nil (d : Int) (c : Nat → Int) (counts : Counts) (chosen : List Word)
    (used : Nat) (best : Best) (tick : Nat) :
    dfsLoop d c [] counts chosen used best tick = (best, tick) := rfl

theorem dfsLoop_cons_long {d : Int} {c : Nat → Int} {w : Word} {counts : Counts}
    {rest : List Word} {chosen : List Word} {used : Nat} {best : Best} {tick : Nat}
    (h : (w.length : Int) > counts.total) :
    dfsLoop d c (w :: rest) counts chosen used best tick =
      dfsLoop d c rest counts chosen used best tick := by
  rw [dfsLoop, if_pos h]

theorem dfsLoop_cons_afford {d : Int} {c : Nat → Int} {w : Word} {counts : Counts}
    {rest : List Word} {chosen : List Word} {used : Nat} {best : Best} {tick : Nat}
    (h1 : ¬ (w.length : Int) > counts.total) (h2 : canAfford counts w = true) :
    dfsLoop d c (w :: rest) counts chosen used best tick =
      dfsLoop d c rest counts chosen used
        (dfs d c rest (subtractWord counts w) (chosen ++ [w]) (used + w.length) best tick).1
        (dfs d c rest (subtractWord counts w) (chosen ++ [w]) (used + w.length) best tick).2 := by
  rw [dfsLoop, if_neg h1, if_pos h2, dfs]

theorem dfsLoop_cons_skip {d : Int} {c : Nat → Int} {w : Word} {counts : Counts}
    {rest : List Word} {chosen : List Word} {used : Nat} {best : Best} {tick : Nat}
    (h1 : ¬ (w.length : Int) > counts.total) (h2 : canAfford counts w = false) :
    dfsLoop d c (w :: rest) counts chosen used best tick =
      dfsLoop d c rest counts chosen used best tick := by
  rw [dfsLoop, if_neg h1, if_neg (by simp [h2])]

theorem dfsLoopNP_nil (d : Int) (c : Nat → Int) (counts : Counts) (chosen : List Word)
    (used : Nat) (best : Best) (tick : Nat) :
    dfsLoopNP d c [] counts chosen used best tick = (best, tick) := rfl

theorem dfsLoopNP_cons_afford {d : Int} {c : Nat → Int} {w : Word} {counts : Counts}
    {rest : List Word} {chosen : List Word} {used : Nat} {best : Best} {tick : Nat}
    (h2 : canAfford counts w = true) :
    dfsLoopNP d c (w :: rest) counts chosen used best tick =
      dfsLoopNP d c rest counts chosen used
        (dfsNP d c rest (subtractWord counts w) (chosen ++ [w]) (used + w.length) best tick).1
        (dfsNP d c rest (subtractWord counts w) (chosen ++ [w]) (used + w.length) best tick).2 := by
  rw [dfsLoopNP, if_pos h2, dfsNP]

theorem dfsLoopNP_cons_skip {d : Int} {c : Nat → Int} {w : Word} {counts : Counts}
    {rest : List Word} {chosen : List Word} {used : Nat} {best : Best} {tick : Nat}
    (h2 : canAfford counts w = false) :
    dfsLoopNP d c (w :: rest) counts chosen used best tick =
      dfsLoopNP d c rest counts chosen used best tick := by
  rw [dfsLoopNP, if_neg (by simp [h2])]

/-! ### Lemmas about the `Counts` mapping -/

namespace Counts

theorem keyList_nil : keyList [] = [] := rfl

theorem keyList_cons (p : Char × Int) (rest : Counts) :
    keyList (p :: rest) = p.1 :: keyList rest := rfl

theorem get_upd_self (m : Counts) (ch : Char) (v : Int) : (m.upd ch v).get ch = v := by
  induction m with
  | nil => simp [upd, get]
  | cons p rest ih =>
    by_cases h : p.1 = ch
    · simp [upd, h, get]
    · simp [upd, h, get, ih]

theorem get_upd_ne (m : Counts) {ch ch' : Char} (v : Int) (h : ch' ≠ ch) :
    (m.upd ch v).get ch' = m.get ch' := by
  have h' : ch ≠ ch' := fun hc => h hc.symm
  induction m with
  | nil => simp only [upd, get, if_neg h']
  | cons p rest ih =>
    by_cases hp : p.1 = ch
    · subst hp
      simp only [upd, if_pos rfl, get, if_neg h']
    · simp only [upd, if_neg hp, get]
      by_cases hp' : p.1 = ch'
      · simp [hp']
      · simp [hp', ih]

theorem keyList_upd (m : Counts) (ch : Char) (v : Int) :
    (m.upd ch v).keyList =
      if ch ∈ m.keyList then m.keyList else m.keyList ++ [ch] := by
  induction m with
  | nil => simp [upd, keyList]
  | cons p rest ih =>
    by_cases hp : p.1 = ch
    · subst hp
      simp [upd, keyList_cons]
    · simp only [upd, if_neg hp, keyList_cons, ih, List.mem_cons]
      have hne : ¬ ch = p.1 := fun hc => hp hc.symm
      by_cases hm : ch ∈ keyList rest
      · simp [hm, hne]
      · simp [hm, hne]

theorem nodup_keyList_upd (m : Counts) (ch : Char) (v : Int)
    (h : m.keyList.Nodup) : (m.upd ch v).keyList.Nodup := by
  rw [keyList_upd]
  by_cases hm : ch ∈ m.keyList
  · simpa [hm] using h
  · rw [if_neg hm]
    refine List.Nodup.append h (List.nodup_singleton ch) ?_
    intro a ha hb
    rw [List.mem_singleton] at hb
    subst hb
    exact hm ha

theorem get_eq_zero_of_not_mem_keyList (m : Counts) (ch : Char)
    (h : ch ∉ m.keyList) : m.get ch = 0 := by
  induction m with
  | nil => rfl
  | cons p rest ih =>
    rw [keyList_cons, List.mem_cons] at h
    push_neg at h
    have h1 : p.1 ≠ ch := fun hc => h.1 hc.symm
    simp only [get, if_neg h1]
    exact ih h.2

end Counts

/-! ### Lemmas about `subtractWord`, `canAfford`, `occSum`, `lenSum` -/

theorem get_foldl_upd_notmem (w : Word) (l : List Char) (m : Counts) (ch : Char)
    (h : ch ∉ l) :
    (l.foldl (fun acc c => acc.upd c (acc.get c - (wCount w c : Int))) m).get ch = m.get ch := by
  induction l generalizing m with
  | nil => rfl
  | cons c l ih =>
    rw [List.mem_cons] at h
    push_neg at h
    simp only [List.foldl_cons]
    rw [ih _ h.2, Counts.get_upd_ne _ _ h.1]

theorem get_foldl_upd_mem (w : Word) (l : List Char) (m : Counts) (ch : Char)
    (hnd : l.Nodup) (h : ch ∈ l) :
    (l.foldl (fun acc c => acc.upd c (acc.get c - (wCount w c : Int))) m).get ch =
      m.get ch - (wCount w ch : Int) := by
  induction l generalizing m with
  | nil => cases h
  | cons c l ih =>
    rw [List.nodup_cons] at hnd
    simp only [List.foldl_cons]
    rcases List.mem_cons.mp h with rfl | hmem
    · rw [get_foldl_upd_notmem _ _ _ _ hnd.1, Counts.get_upd_self]
    · rw [ih _ hnd.2 hmem, Counts.get_upd_ne]
      rintro rfl
      exact hnd.1 hmem

/-- Extensional behaviour of the in-place subtraction: every letter's count
drops by its multiplicity in `w`. -/
theorem subtractWord_get (m : Counts) (w : Word) (ch : Char) :
    (subtractWord m w).get ch = m.get ch - (wCount w ch : Int) := by
  unfold subtractWord
  by_cases h : ch ∈ w
  · exact get_foldl_upd_mem w w.dedup m ch w.nodup_dedup (List.mem_dedup.mpr h)
  · rw [get_foldl_upd_notmem w w.dedup m ch (fun hc => h (List.mem_dedup.mp hc))]
    have hz : wCount w ch = 0 := by
      simpa [wCount] using List.count_eq_zero.mpr h
    simp [hz]

theorem nodup_keyList_foldl_upd (w : Word) (l : List Char) (m : Counts)
    (h : m.keyList.Nodup) :
    ((l.foldl (fun acc c => acc.upd c (acc.get c - (wCount w c : Int))) m)).keyList.Nodup := by
  induction l generalizing m with
  | nil => exact h
  | cons c l ih =>
    simp only [List.foldl_cons]
    exact ih _ (Counts.nodup_keyList_upd _ _ _ h)

theorem nodup_keyList_subtractWord (m : Counts) (w : Word)
    (h : m.keyList.Nodup) : (subtractWord m w).keyList.Nodup :=
  nodup_keyList_foldl_upd w w.dedup m h

theorem canAfford_iff (m : Counts) (w : Word) :
    canAfford m w = true ↔ ∀ ch ∈ w, (wCount w ch : Int) ≤ m.get ch := by
  simp [canAfford, List.all_eq_true]

/-- Affordability bounds every letter, whether or not it occurs in `w`. -/
theorem count_le_get_of_canAfford {m : Counts} {w : Word}
    (hA : canAfford m w = true) (hN : ∀ ch, 0 ≤ m.get ch) (ch : Char) :
    (wCount w ch : Int) ≤ m.get ch := by
  by_cases h : ch ∈ w
  · exact (canAfford_iff m w).mp hA ch h
  · have hz : wCount w ch = 0 := by simpa [wCount] using List.count_eq_zero.mpr h
    rw [hz]
    simpa using hN ch

/-- Non-negativity of the pool is preserved by an afforded subtraction. -/
theorem subtractWord_nonneg {m : Counts} {w : Word}
    (hA : canAfford m w = true) (hN : ∀ ch, 0 ≤ m.get ch) :
    ∀ ch, 0 ≤ (subtractWord m w).get ch := by
  intro ch
  rw [subtractWord_get]
  have := count_le_get_of_canAfford hA hN ch
  omega

theorem occSum_nil (ch : Char) : occSum [] ch = 0 := rfl

theorem occSum_append (l₁ l₂ : List Word) (ch : Char) :
    occSum (l₁ ++ l₂) ch = occSum l₁ ch + occSum l₂ ch := by
  simp [occSum]

theorem occSum_singleton (w : Word) (ch : Char) : occSum [w] ch = wCount w ch := by
  simp [occSum]

theorem lenSum_nil : lenSum [] = 0 := rfl

theorem lenSum_cons (w : Word) (l : List Word) : lenSum (w :: l) = w.length + lenSum l := by
  simp [lenSum]

theorem lenSum_append (l₁ l₂ : List Word) : lenSum (l₁ ++ l₂) = lenSum l₁ + lenSum l₂ := by
  simp [lenSum]

theorem lenSum_singleton (w : Word) : lenSum [w] = w.length := by
  simp [lenSum]

/-! ### The cheap length pre-check versus the per-letter check -/

theorem total_eq_sum_get (m : Counts) (h : m.keyList.Nodup) :
    m.total = ∑ ch in m.keyList.toFinset, m.get ch := by
  induction m with
  | nil => simp [Counts.total, Counts.keyList]
  | cons p rest ih =>
    rw [Counts.keyList_cons, List.nodup_cons] at h
    have hp : p.1 ∉ (Counts.keyList rest).toFinset := fun hc => h.1 (List.mem_toFinset.mp hc)
    rw [Counts.keyList_cons, List.toFinset_cons, Finset.sum_insert hp]
    have hgp : Counts.get (p :: rest) p.1 = p.2 := by simp [Counts.get]
    have hrest : ∑ ch in (Counts.keyList rest).toFinset, Counts.get (p :: rest) ch =
        ∑ ch in (Counts.keyList rest).toFinset, Counts.get rest ch := by
      refine Finset.sum_congr rfl fun ch hch => ?_
      have hne : p.1 ≠ ch := fun hc => h.1 (hc ▸ List.mem_toFinset.mp hch)
      simp [Counts.get, hne]
    rw [hgp, hrest, ← ih h.2]
    simp [Counts.total]

theorem word_length_eq_sum_count (w : Word) :
    w.length = ∑ ch in w.toFinset, wCount w ch := by
  have h := Multiset.toFinset_sum_count_eq (w : Multiset Char)
  simp only [wCount]
  simpa using h.symm

/-- If every letter of `w` is affordable from a duplicate-free, non-negative
pool, then `w` is no longer than the total remaining letters: the cheap
length pre-check rejects only words the per-letter check would reject. -/
theorem length_le_total_of_canAfford {m : Counts} {w : Word}
    (hnd : m.keyList.Nodup) (hN : ∀ ch, 0 ≤ m.get ch) (hA : canAfford m w = true) :
    (w.length : Int) ≤ m.total := by
  rw [total_eq_sum_get m hnd]
  have h1 : (w.length : Int) = ∑ ch in w.toFinset, (wCount w ch : Int) := by
    rw [word_length_eq_sum_count w]
    push_cast
    rfl
  rw [h1]
  have h2 : ∑ ch in w.toFinset, (wCount w ch : Int) ≤ ∑ ch in w.toFinset, m.get ch :=
    Finset.sum_le_sum fun ch hch => (canAfford_iff m w).mp hA ch (List.mem_toFinset.mp hch)
  refine le_trans h2 ?_
  have h3 : ∑ ch in w.toFinset, m.get ch =
      ∑ ch in w.toFinset ∩ m.keyList.toFinset, m.get ch := by
    refine (Finset.sum_subset Finset.inter_subset_left ?_).symm
    intro x hx hnx
    refine Counts.get_eq_zero_of_not_mem_keyList m x fun hm => ?_
    exact hnx (Finset.mem_inter.mpr ⟨hx, List.mem_toFinset.mpr hm⟩)
  rw [h3]
  exact Finset.sum_le_sum_of_subset_of_nonneg Finset.inter_subset_right fun ch _ _ => hN ch

theorem canAfford_eq_false_of_long {m : Counts} {w : Word}
    (hnd : m.keyList.Nodup) (hN : ∀ ch, 0 ≤ m.get ch)
    (hL : (w.length : Int) > m.total) : canAfford m w = false := by
  by_contra h
  rw [Bool.not_eq_false] at h
  exact absurd (length_le_total_of_canAfford hnd hN h) (not_le.mpr hL)

/-! ### Stability of the length-descending sort -/

theorem filter_orderedInsert_len (x : Word) (l : List Word) (k : Nat) :
    (List.orderedInsert byLenDesc x l).filter (fun w => w.length == k) =
      if x.length = k then x :: l.filter (fun w => w.length == k)
      else l.filter (fun w => w.length == k) := by
  induction l with
  | nil => by_cases h : x.length = k <;> simp [List.orderedInsert, h]
  | cons b l ih =>
    by_cases hr : byLenDesc x b
    · simp only [List.orderedInsert, if_pos hr]
      by_cases h : x.length = k <;> simp [List.filter_cons, h]
    · simp only [List.orderedInsert, if_neg hr]
      have hb : x.length < b.length := not_le.mp hr
      by_cases h : x.length = k
      · have hbk : ¬ b.length = k := by omega
        simp [List.filter_cons, hbk, ih, h]
      · by_cases hbk : b.length = k <;> simp [List.filter_cons, hbk, ih, h]

/-- Stability of `sorted(words, key=len, reverse=True)`: within each length
class the sorted list keeps the words in their original order. -/
theorem filter_sortDesc_len (ws : List Word) (k : Nat) :
    (sortDesc ws).filter (fun w => w.length == k) = ws.filter (fun w => w.length == k) := by
  induction ws with
  | nil => rfl
  | cons x ws ih =>
    rw [sortDesc, List.insertionSort, filter_orderedInsert_len,
      show List.insertionSort byLenDesc ws = sortDesc ws from rfl, ih]
    by_cases h : x.length = k <;> simp [List.filter_cons, h]

theorem sortDesc_sorted (ws : List Word) : (sortDesc ws).Sorted byLenDesc :=
  List.sorted_insertionSort byLenDesc ws

theorem sortDesc_perm (ws : List Word) : (sortDesc ws).Perm ws :=
  List.perm_insertionSort byLenDesc ws

/-! ### Monotonicity of the recorded best solution -/

theorem dfsLoop_best_mono (d : Int) (c : Nat → Int) :
    ∀ (rest : List Word) (counts : Counts) (chosen : List Word) (used : Nat)
      (best : Best) (tick : Nat),
      best.used ≤ (dfsLoop d c rest counts chosen used best tick).1.used := by
  intro rest
  induction rest with
  | nil =>
    intro counts chosen used best tick
    rw [dfsLoop_nil]
  | cons w rest ih =>
    intro counts chosen used best tick
    by_cases h1 : (w.length : Int) > counts.total
    · rw [dfsLoop_cons_long h1]
      exact ih counts chosen used best tick
    · by_cases h2 : canAfford counts w = true
      · rw [dfsLoop_cons_afford h1 h2]
        refine le_trans ?_ (ih counts chosen used _ _)
        simp only [dfs]
        split_ifs with ht hp hu
        · exact le_refl _
        · exact le_refl _
        · exact le_trans (le_of_lt hu)
            (ih (subtractWord counts w) (chosen ++ [w]) (used + w.length)
              ⟨used + w.length, chosen ++ [w]⟩ (tick + 1))
        · exact ih (subtractWord counts w) (chosen ++ [w]) (used + w.length) best (tick + 1)
      · rw [Bool.not_eq_true] at h2
        rw [dfsLoop_cons_skip h1 h2]
        exact ih counts chosen used best tick

theorem dfs_best_mono (d : Int) (c : Nat → Int) (rest : List Word) (counts : Counts)
    (chosen : List Word) (used : Nat) (best : Best) (tick : Nat) :
    best.used ≤ (dfs d c rest counts chosen used best tick).1.used := by
  simp only [dfs]
  split_ifs with ht hp hu
  · exact le_refl _
  · exact le_refl _
  · exact le_trans (le_of_lt hu)
      (dfsLoop_best_mono d c rest counts chosen used ⟨used, chosen⟩ (tick + 1))
  · exact dfsLoop_best_mono d c rest counts chosen used best (tick + 1)

/-! ### Monotonicity of the tick counter (number of clock reads) -/

theorem dfsLoop_tick_mono (d : Int) (c : Nat → Int) :
    ∀ (rest : List Word) (counts : Counts) (chosen : List Word) (used : Nat)
      (best : Best) (tick : Nat),
      tick ≤ (dfsLoop d c rest counts chosen used best tick).2 := by
  intro rest
  induction rest with
  | nil =>
    intro counts chosen used best tick
    rw [dfsLoop_nil]
  | cons w rest ih =>
    intro counts chosen used best tick
    by_cases h1 : (w.length : Int) > counts.total
    · rw [dfsLoop_cons_long h1]
      exact ih counts chosen used best tick
    · by_cases h2 : canAfford counts w = true
      · rw [dfsLoop_cons_afford h1 h2]
        refine le_trans ?_ (ih counts chosen used _ _)
        simp only [dfs]
        split_ifs with ht hp hu
        · omega
        · omega
        · exact le_trans (by omega)
            (ih (subtractWord counts w) (chosen ++ [w]) (used + w.length)
              ⟨used + w.length, chosen ++ [w]⟩ (tick + 1))
        · exact le_trans (by omega)
            (ih (subtractWord counts w) (chosen ++ [w]) (used + w.length) best (tick + 1))
      · rw [Bool.not_eq_true] at h2
        rw [dfsLoop_cons_skip h1 h2]
        exact ih counts chosen used best tick

theorem dfs_tick_mono (d : Int) (c : Nat → Int) (rest : List Word) (counts : Counts)
    (chosen : List Word) (used : Nat) (best : Best) (tick : Nat) :
    tick ≤ (dfs d c rest counts chosen used best tick).2 := by
  simp only [dfs]
  split_ifs with ht hp hu
  · omega
  · omega
  · exact le_trans (by omega)
      (dfsLoop_tick_mono d c rest counts chosen used ⟨used, chosen⟩ (tick + 1))
  · exact le_trans (by omega)
      (dfsLoop_tick_mono d c rest counts chosen used best (tick + 1))

theorem mkResult_subset (final : Counts) (p : Best × Nat) :
    (mkResult final p).subset = p.1.subset := rfl

theorem mkResult_used (final : Counts) (p : Best × Nat) :
    (mkResult final p).used = p.1.used := rfl

theorem mkResult_finalCounts (final : Counts) (p : Best × Nat) :
    (mkResult final p).finalCounts = final := rfl

theorem mkResult_ticks (final : Counts) (p : Best × Nat) :
    (mkResult final p).ticks = p.2 := rfl

/-! ### The accounting invariant: `used` always equals the total length of
the chosen words, and the recorded best pair stays consistent -/

theorem dfsLoop_accounting (d : Int) (c : Nat → Int) :
    ∀ (rest : List Word) (counts : Counts) (chosen : List Word) (used : Nat)
      (best : Best) (tick : Nat),
      used = lenSum chosen →
      best.used = lenSum best.subset →
      (dfsLoop d c rest counts chosen used best tick).1.used =
        lenSum (dfsLoop d c rest counts chosen used best tick).1.subset := by
  intro rest
  induction rest with
  | nil =>
    intro counts chosen used best tick hu hb
    rw [dfsLoop_nil]
    exact hb
  | cons w rest ih =>
    intro counts chosen used best tick hu hb
    by_cases h1 : (w.length : Int) > counts.total
    · rw [dfsLoop_cons_long h1]
      exact ih counts chosen used best tick hu hb
    · by_cases h2 : canAfford counts w = true
      · rw [dfsLoop_cons_afford h1 h2]
        refine ih counts chosen used _ _ hu ?_
        simp only [dfs]
        split_ifs with ht hp hupd
        · exact hb
        · exact hb
        · refine ih (subtractWord counts w) (chosen ++ [w]) (used + w.length)
            ⟨used + w.length, chosen ++ [w]⟩ (tick + 1) ?_ ?_
          · rw [lenSum_append, lenSum_singleton, hu]
          · simp only [lenSum_append, lenSum_singleton, hu]
        · exact ih (subtractWord counts w) (chosen ++ [w]) (used + w.length) best (tick + 1)
            (by rw [lenSum_append, lenSum_singleton, hu]) hb
      · rw [Bool.not_eq_true] at h2
        rw [dfsLoop_cons_skip h1 h2]
        exact ih counts chosen used best tick hu hb

theorem dfs_accounting (d : Int) (c : Nat → Int) (rest : List Word) (counts : Counts)
    (chosen : List Word) (used : Nat) (best : Best) (tick : Nat)
    (hu : used = lenSum chosen) (hb : best.used = lenSum best.subset) :
    (dfs d c rest counts chosen used best tick).1.used =
      lenSum (dfs d c rest counts chosen used best tick).1.subset := by
  simp only [dfs]
  split_ifs with ht hp hupd
  · exact hb
  · exact hb
  · exact dfsLoop_accounting d c rest counts chosen used ⟨used, chosen⟩ (tick + 1) hu
      (by simpa using hu)
  · exact dfsLoop_accounting d c rest counts chosen used best (tick + 1) hu hb

/-! ### The sub-multiset invariant: chosen words never use more of a letter
than the original pool provides -/

theorem dfsLoop_submultiset (pool : Counts) (d : Int) (c : Nat → Int) :
    ∀ (rest : List Word) (counts : Counts) (chosen : List Word) (used : Nat)
      (best : Best) (tick : Nat),
      (∀ ch, 0 ≤ counts.get ch) →
      (∀ ch, (occSum chosen ch : Int) + counts.get ch = pool.get ch) →
      (∀ ch, (occSum best.subset ch : Int) ≤ pool.get ch) →
      ∀ ch, (occSum (dfsLoop d c rest counts chosen used best tick).1.subset ch : Int) ≤
        pool.get ch := by
  intro rest
  induction rest with
  | nil =>
    intro counts chosen used best tick _ _ hb
    rw [dfsLoop_nil]
    exact hb
  | cons w rest ih =>
    intro counts chosen used best tick hN hbal hb
    by_cases h1 : (w.length : Int) > counts.total
    · rw [dfsLoop_cons_long h1]
      exact ih counts chosen used best tick hN hbal hb
    · by_cases h2 : canAfford counts w = true
      · rw [dfsLoop_cons_afford h1 h2]
        have hN' : ∀ ch, 0 ≤ (subtractWord counts w).get ch := subtractWord_nonneg h2 hN
        have hbal' : ∀ ch, (occSum (chosen ++ [w]) ch : Int) + (subtractWord counts w).get ch =
            pool.get ch := by
          intro ch
          rw [occSum_append, occSum_singleton, subtractWord_get]
          have := hbal ch
          push_cast
          push_cast at this
          omega
        have hgood : ∀ ch, (occSum (chosen ++ [w]) ch : Int) ≤ pool.get ch := by
          intro ch
          have h1' := hbal' ch
          have h2' := hN' ch
          omega
        refine ih counts chosen used _ _ hN hbal ?_
        simp only [dfs]
        split_ifs with ht hp hupd
        · exact hb
        · exact hb
        · exact ih (subtractWord counts w) (chosen ++ [w]) (used + w.length)
            ⟨used + w.length, chosen ++ [w]⟩ (tick + 1) hN' hbal' hgood
        · exact ih (subtractWord counts w) (chosen ++ [w]) (used + w.length) best (tick + 1)
            hN' hbal' hb
      · rw [Bool.not_eq_true] at h2
        rw [dfsLoop_cons_skip h1 h2]
        exact ih counts chosen used best tick hN hbal hb

theorem dfs_submultiset (pool : Counts) (d : Int) (c : Nat → Int) (rest : List Word)
    (counts : Counts) (chosen : List Word) (used : Nat) (best : Best) (tick : Nat)
    (hN : ∀ ch, 0 ≤ counts.get ch)
    (hbal : ∀ ch, (occSum chosen ch : Int) + counts.get ch = pool.get ch)
    (hb : ∀ ch, (occSum best.subset ch : Int) ≤ pool.get ch) :
    ∀ ch, (occSum (dfs d c rest counts chosen used best tick).1.subset ch : Int) ≤
      pool.get ch := by
  have hgood : ∀ ch, (occSum chosen ch : Int) ≤ pool.get ch := by
    intro ch
    have h1 := hbal ch
    have h2 := hN ch
    omega
  simp only [dfs]
  split_ifs with ht hp hupd
  · exact hb
  · exact hb
  · exact dfsLoop_submultiset pool d c rest counts chosen used ⟨used, chosen⟩ (tick + 1)
      hN hbal hgood
  · exact dfsLoop_submultiset pool d c rest counts chosen used best (tick + 1) hN hbal hb

/-! ### Structure of every recorded subset: the fixed root path followed by
an order-preserving selection (sublist) of the sorted candidate list -/

theorem dfsLoop_subset_structure (ws chosen0 : List Word) (d : Int) (c : Nat → Int) :
    ∀ (rest : List Word) (counts : Counts) (chosen : List Word) (used : Nat)
      (best : Best) (tick : Nat),
      (∃ sel, chosen = chosen0 ++ sel ∧ List.Sublist (sel ++ rest) ws) →
      (∃ sel, best.subset = chosen0 ++ sel ∧ List.Sublist sel ws) →
      ∃ sel, (dfsLoop d c rest counts chosen used best tick).1.subset = chosen0 ++ sel ∧
        List.Sublist sel ws := by
  intro rest
  induction rest with
  | nil =>
    intro counts chosen used best tick _ hb
    rw [dfsLoop_nil]
    exact hb
  | cons w rest ih =>
    intro counts chosen used best tick hc hb
    obtain ⟨sel, hsel, hsub⟩ := hc
    have hcrest : ∃ sel, chosen = chosen0 ++ sel ∧ List.Sublist (sel ++ rest) ws := by
      refine ⟨sel, hsel, List.Sublist.trans ?_ hsub⟩
      exact (List.sublist_cons_self w rest).append_left sel
    by_cases h1 : (w.length : Int) > counts.total
    · rw [dfsLoop_cons_long h1]
      exact ih counts chosen used best tick hcrest hb
    · by_cases h2 : canAfford counts w = true
      · rw [dfsLoop_cons_afford h1 h2]
        have hsub' : List.Sublist ((sel ++ [w]) ++ rest) ws := by
          rw [List.append_assoc]
          exact hsub
        have hchosen' : ∃ s, chosen ++ [w] = chosen0 ++ s ∧ List.Sublist (s ++ rest) ws :=
          ⟨sel ++ [w], by rw [hsel, List.append_assoc], hsub'⟩
        have hselw : List.Sublist (sel ++ [w]) ws :=
          List.Sublist.trans (List.sublist_append_left (sel ++ [w]) rest) hsub'
        refine ih counts chosen used _ _ hcrest ?_
        simp only [dfs]
        split_ifs with ht hp hupd
        · exact hb
        · exact hb
        · exact ih (subtractWord counts w) (chosen ++ [w]) (used + w.length)
            ⟨used + w.length, chosen ++ [w]⟩ (tick + 1) hchosen'
            ⟨sel ++ [w], by rw [hsel, List.append_assoc], hselw⟩
        · exact ih (subtractWord counts w) (chosen ++ [w]) (used + w.length) best (tick + 1)
            hchosen' hb
      · rw [Bool.not_eq_true] at h2
        rw [dfsLoop_cons_skip h1 h2]
        exact ih counts chosen used best tick hcrest hb

theorem dfs_subset_structure (ws chosen0 : List Word) (d : Int) (c : Nat → Int)
    (rest : List Word) (counts : Counts) (chosen : List Word) (used : Nat)
    (best : Best) (tick : Nat)
    (hc : ∃ sel, chosen = chosen0 ++ sel ∧ List.Sublist (sel ++ rest) ws)
    (hb : ∃ sel, best.subset = chosen0 ++ sel ∧ List.Sublist sel ws) :
    ∃ sel, (dfs d c rest counts chosen used best tick).1.subset = chosen0 ++ sel ∧
      List.Sublist sel ws := by
  obtain ⟨sel, hsel, hsub⟩ := hc
  have hchosen : ∃ s, chosen = chosen0 ++ s ∧ List.Sublist s ws :=
    ⟨sel, hsel, List.Sublist.trans (List.sublist_append_left sel rest) hsub⟩
  simp only [dfs]
  split_ifs with ht hp hupd
  · exact hb
  · exact hb
  · exact dfsLoop_subset_structure ws chosen0 d c rest counts chosen used ⟨used, chosen⟩
      (tick + 1) ⟨sel, hsel, hsub⟩ hchosen
  · exact dfsLoop_subset_structure ws chosen0 d c rest counts chosen used best (tick + 1)
      ⟨sel, hsel, hsub⟩ hb

/-! ### Removing the cheap length pre-check does not change the search -/

/-- A well-formed pool as produced by `Counter(letters)`: duplicate-free keys
and non-negative counts. -/
def WfPool (m : Counts) : Prop := m.keyList.Nodup ∧ ∀ ch, 0 ≤ m.get ch

theorem WfPool_subtractWord {m : Counts} {w : Word} (hW : WfPool m)
    (hA : canAfford m w = true) : WfPool (subtractWord m w) :=
  ⟨nodup_keyList_subtractWord m w hW.1, subtractWord_nonneg hA hW.2⟩

theorem dfsLoop_np_eq (d : Int) (c : Nat → Int) :
    ∀ (rest : List Word) (counts : Counts) (chosen : List Word) (used : Nat)
      (best : Best) (tick : Nat), WfPool counts →
      dfsLoop d c rest counts chosen used best tick =
        dfsLoopNP d c rest counts chosen used best tick := by
  intro rest
  induction rest with
  | nil =>
    intro counts chosen used best tick _
    rw [dfsLoop_nil, dfsLoopNP_nil]
  | cons w rest ih =>
    intro counts chosen used best tick hW
    by_cases h1 : (w.length : Int) > counts.total
    · have h2 : canAfford counts w = false := canAfford_eq_false_of_long hW.1 hW.2 h1
      rw [dfsLoop_cons_long h1, dfsLoopNP_cons_skip h2]
      exact ih counts chosen used best tick hW
    · by_cases h2 : canAfford counts w = true
      · rw [dfsLoop_cons_afford h1 h2, dfsLoopNP_cons_afford h2]
        have hWsub := WfPool_subtractWord hW h2
        have hdfs :
            dfs d c rest (subtractWord counts w) (chosen ++ [w]) (used + w.length) best tick =
              dfsNP d c rest (subtractWord counts w) (chosen ++ [w]) (used + w.length)
                best tick := by
          simp only [dfs, dfsNP]
          split_ifs with ht hp hupd
          · rfl
          · rfl
          · exact ih (subtractWord counts w) (chosen ++ [w]) (used + w.length)
              ⟨used + w.length, chosen ++ [w]⟩ (tick + 1) hWsub
          · exact ih (subtractWord counts w) (chosen ++ [w]) (used + w.length) best (tick + 1)
              hWsub
        rw [hdfs]
        exact ih counts chosen used _ _ hW
      · rw [Bool.not_eq_true] at h2
        rw [dfsLoop_cons_skip h1 h2, dfsLoopNP_cons_skip h2]
        exact ih counts chosen used best tick hW

theorem dfs_np_eq (d : Int) (c : Nat → Int) (rest : List Word) (counts : Counts)
    (chosen : List Word) (used : Nat) (best : Best) (tick : Nat) (hW : WfPool counts) :
    dfs d c rest counts chosen used best tick =
      dfsNP d c rest counts chosen used best tick := by
  simp only [dfs, dfsNP]
  split_ifs with ht hp hupd
  · rfl
  · rfl
  · exact dfsLoop_np_eq d c rest counts chosen used ⟨used, chosen⟩ (tick + 1) hW
  · exact dfsLoop_np_eq d c rest counts chosen used best (tick + 1) hW

/-! ### The search result does not depend on the clock while the deadline
never fires -/

theorem dfsLoop_clock_eq (d1 d2 : Int) (c1 c2 : Nat → Int)
    (H1 : ∀ k, 1 ≤ k → c1 k ≤ d1) (H2 : ∀ k, 1 ≤ k → c2 k ≤ d2) :
    ∀ (rest : List Word) (counts : Counts) (chosen : List Word) (used : Nat)
      (best : Best) (tick : Nat), 1 ≤ tick →
      dfsLoop d1 c1 rest counts chosen used best tick =
        dfsLoop d2 c2 rest counts chosen used best tick := by
  intro rest
  induction rest with
  | nil =>
    intro counts chosen used best tick _
    rw [dfsLoop_nil, dfsLoop_nil]
  | cons w rest ih =>
    intro counts chosen used best tick htick
    by_cases h1 : (w.length : Int) > counts.total
    · rw [dfsLoop_cons_long h1, dfsLoop_cons_long h1]
      exact ih counts chosen used best tick htick
    · by_cases h2 : canAfford counts w = true
      · rw [dfsLoop_cons_afford h1 h2, dfsLoop_cons_afford h1 h2]
        have hdfs :
            dfs d1 c1 rest (subtractWord counts w) (chosen ++ [w]) (used + w.length) best tick =
              dfs d2 c2 rest (subtractWord counts w) (chosen ++ [w]) (used + w.length)
                best tick := by
          simp only [dfs]
          rw [if_neg (not_lt.mpr (H1 tick htick)), if_neg (not_lt.mpr (H2 tick htick))]
          split_ifs with hp hupd
          · rfl
          · exact ih (subtractWord counts w) (chosen ++ [w]) (used + w.length)
              ⟨used + w.length, chosen ++ [w]⟩ (tick + 1) (by omega)
          · exact ih (subtractWord counts w) (chosen ++ [w]) (used + w.length) best (tick + 1)
              (by omega)
        rw [hdfs]
        refine ih counts chosen used _ _ ?_
        exact le_trans htick (dfs_tick_mono d2 c2 rest (subtractWord counts w) (chosen ++ [w])
          (used + w.length) best tick)
      · rw [Bool.not_eq_true] at h2
        rw [dfsLoop_cons_skip h1 h2, dfsLoop_cons_skip h1 h2]
        exact ih counts chosen used best tick htick

theorem dfs_clock_eq (d1 d2 : Int) (c1 c2 : Nat → Int)
    (H1 : ∀ k, 1 ≤ k → c1 k ≤ d1) (H2 : ∀ k, 1 ≤ k → c2 k ≤ d2)
    (rest : List Word) (counts : Counts) (chosen : List Word) (used : Nat)
    (best : Best) (tick : Nat) (htick : 1 ≤ tick) :
    dfs d1 c1 rest counts chosen used best tick =
      dfs d2 c2 rest counts chosen used best tick := by
  simp only [dfs]
  rw [if_neg (not_lt.mpr (H1 tick htick)), if_neg (not_lt.mpr (H2 tick htick))]
  split_ifs with hp hupd
  · rfl
  · exact dfsLoop_clock_eq d1 d2 c1 c2 H1 H2 rest counts chosen used ⟨used, chosen⟩ (tick + 1)
      (by omega)
  · exact dfsLoop_clock_eq d1 d2 c1 c2 H1 H2 rest counts chosen used best (tick + 1) (by omega)

/-! ### Claims -/

/-- Counterexample to claim C1: pool `{A: 2, B: 2}`, sole candidate `"AB"`.
The greedy seed picks `"AB"`, but the DFS root starts at index 0 of the
sorted list, so the seed word is re-selected (its letters are affordable a
second time) and the returned subset contains the candidate `"AB"` twice. -/
theorem c1_counterexample :
    1 < (find_best_cover [['A', 'B']] [('A', 2), ('B', 2)] 1000 fun _ => 0).subset.count
      ['A', 'B'] := by decide

/-- Claim C1 (amended): the root DFS call is made at index 0 of the sorted
candidate list without excluding the seed word, so the returned subset is
the seed word (when one was chosen) followed by an order-preserving
selection without index reuse — a sublist — of the sorted candidate list;
inside the DFS each candidate position is chosen at most once per path, but
the seed word itself remains selectable and may appear a second time. -/
theorem c1_amended_structure (words : List Word) (letter_counts : Counts) (timeout : Int)
    (clock : Nat → Int) :
    ∃ sel,
      (find_best_cover words letter_counts timeout clock).subset =
        (greedySeed (sortDesc words) letter_counts).toList ++ sel ∧
      List.Sublist sel (sortDesc words) := by
  unfold find_best_cover
  cases hseed : greedySeed (sortDesc words) letter_counts with
  | some w =>
    simp only [mkResult_subset, Option.toList]
    refine dfs_subset_structure (sortDesc words) [w] _ _ _ _ _ _ _ _ ?_ ?_
    · exact ⟨[], by simp, by simp⟩
    · exact ⟨[], by simp, List.nil_sublist (sortDesc words)⟩
  | none =>
    simp only [mkResult_subset, Option.toList]
    refine dfs_subset_structure (sortDesc words) [] _ _ _ _ _ _ _ _ ?_ ?_
    · exact ⟨[], by simp, by simp⟩
    · exact ⟨[], by simp, List.nil_sublist (sortDesc words)⟩

/-- Counterexample to claim C2: pool `{C: 1, A: 1, T: 1}`, sole candidate
`"CAT"`.  The greedy-seed phase subtracts the seed word's letters from the
caller's `letter_counts` in place, so after the call the mapping holds `0`
for `'C'` where it held `1` before. -/
theorem c2_counterexample :
    (find_best_cover [['C', 'A', 'T']] [('C', 1), ('A', 1), ('T', 1)] 1000
        fun _ => 0).finalCounts.get 'C' ≠
      Counts.get [('C', 1), ('A', 1), ('T', 1)] 'C' := by decide

/-- Claim C2 (amended): `find_best_cover` never mutates the candidate list,
but it does mutate the caller's letter-count mapping in place: when a greedy
seed word is chosen, each of its letters is decremented by its multiplicity
in the seed word; when no seed word is affordable the mapping is unchanged.
Apart from this one mutation the function is a pure function of
`(pool, candidates, timeout, clock)`. -/
theorem c2_amended_mutation (words : List Word) (m : Counts) (T : Int) (c : Nat → Int) :
    ∀ ch, (find_best_cover words m T c).finalCounts.get ch =
      m.get ch - (occSum (greedySeed (sortDesc words) m).toList ch : Int) := by
  intro ch
  unfold find_best_cover
  cases hseed : greedySeed (sortDesc words) m with
  | some w =>
    simp only [mkResult_finalCounts, Option.toList, occSum_singleton]
    rw [subtractWord_get]
  | none =>
    simp only [mkResult_finalCounts, Option.toList, occSum_nil]
    omega

/-- Claim C3 (confirmed): for every pool with non-negative counts, every
letter's total number of occurrences across the returned subset is at most
that letter's count in the original pool. -/
theorem c3_submultiset (words : List Word) (m : Counts) (T : Int) (c : Nat → Int)
    (hN : ∀ ch, 0 ≤ m.get ch) :
    ∀ ch, (occSum (find_best_cover words m T c).subset ch : Int) ≤ m.get ch := by
  intro ch
  unfold find_best_cover
  cases hseed : greedySeed (sortDesc words) m with
  | some w =>
    have hA : canAfford m w = true := by
      have h := List.find?_some
        (show (sortDesc words).find? (fun w => canAfford m w) = some w from hseed)
      simpa using h
    simp only [mkResult_subset]
    refine dfs_submultiset m _ _ _ _ _ _ _ _ ?_ ?_ ?_ ch
    · exact subtractWord_nonneg hA hN
    · intro ch'
      rw [occSum_singleton, subtractWord_get]
      omega
    · intro ch'
      rw [occSum_singleton]
      exact count_le_get_of_canAfford hA hN ch'
  | none =>
    simp only [mkResult_subset]
    refine dfs_submultiset m _ _ _ _ _ _ _ _ hN ?_ ?_ ch
    · intro ch'
      rw [occSum_nil]
      omega
    · intro ch'
      have := hN ch'
      simp only [occSum_nil]
      omega

theorem c3_submultiset_witness :
    (occSum (find_best_cover [['C', 'A', 'T']] [('C', 1), ('A', 1), ('T', 1)] 50
        fun _ => 0).subset 'C' : Int) ≤ Counts.get [('C', 1), ('A', 1), ('T', 1)] 'C' :=
  c3_submultiset [['C', 'A', 'T']] [('C', 1), ('A', 1), ('T', 1)] 50 (fun _ => 0)
    (by intro ch; simp only [Counts.get]; split_ifs <;> decide) 'C'

/-- Claim C4 (confirmed): the integer returned as `used` always equals the
sum of the lengths of the words in the returned subset. -/
theorem c4_accounting (words : List Word) (m : Counts) (T : Int) (c : Nat → Int) :
    (find_best_cover words m T c).used = lenSum (find_best_cover words m T c).subset := by
  unfold find_best_cover
  cases hseed : greedySeed (sortDesc words) m with
  | some w =>
    simp only [mkResult_used, mkResult_subset]
    exact dfs_accounting _ _ _ _ _ _ _ _ (lenSum_singleton w).symm (lenSum_singleton w).symm
  | none =>
    simp only [mkResult_used, mkResult_subset]
    exact dfs_accounting _ _ _ _ _ _ _ _ rfl rfl

/-- Claim C5 (confirmed): the recorded best `used` value never decreases at
any step of the search: the best-update step inside a node only replaces the
record with a strictly larger value, both the node function and the loop
return a best value at least as large as the one they were given, and the
final result is at least the greedy-seed value (which itself replaced the
initial `0`). -/
theorem c5_monotonic :
    (∀ (best : Best) (used : Nat) (chosen : List Word),
      best.used ≤ (if best.used < used then Best.mk used chosen else best).used) ∧
    (∀ (d : Int) (c : Nat → Int) (rest : List Word) (counts : Counts) (chosen : List Word)
      (used : Nat) (best : Best) (tick : Nat),
      best.used ≤ (dfs d c rest counts chosen used best tick).1.used) ∧
    (∀ (d : Int) (c : Nat → Int) (rest : List Word) (counts : Counts) (chosen : List Word)
      (used : Nat) (best : Best) (tick : Nat),
      best.used ≤ (dfsLoop d c rest counts chosen used best tick).1.used) ∧
    (∀ (words : List Word) (m : Counts) (T : Int) (c : Nat → Int),
      (seedResult words m).2 ≤ (find_best_cover words m T c).used) := by
  refine ⟨?_, ?_, ?_, ?_⟩
  · intro best used chosen
    split_ifs with h
    · exact le_of_lt h
    · exact le_refl _
  · intro d c rest counts chosen used best tick
    exact dfs_best_mono d c rest counts chosen used best tick
  · intro d c rest counts chosen used best tick
    exact dfsLoop_best_mono d c rest counts chosen used best tick
  · intro words m T c
    unfold find_best_cover seedResult
    cases hseed : greedySeed (sortDesc words) m with
    | some w =>
      simp only [mkResult_used]
      exact dfs_best_mono _ _ _ _ _ _ ⟨w.length, [w]⟩ _
    | none =>
      simp only [mkResult_used]
      exact dfs_best_mono _ _ _ _ _ _ ⟨0, []⟩ _

/-- Claim C6 (confirmed): when every clock reading taken after the deadline
was computed exceeds the deadline (timeout zero or already past), the root
DFS node returns at its deadline check, so the result is exactly the
greedy-seed result and exactly two clock reads happen: the one that fixed
the deadline and the one at the root node. -/
theorem c6_immediate_deadline (words : List Word) (m : Counts) (T : Int) (c : Nat → Int)
    (H : ∀ k, 1 ≤ k → c 0 + T < c k) :
    (find_best_cover words m T c).subset = (seedResult words m).1 ∧
    (find_best_cover words m T c).used = (seedResult words m).2 ∧
    (find_best_cover words m T c).ticks = 2 := by
  have h1 : c 1 > c 0 + T := H 1 (le_refl 1)
  unfold find_best_cover seedResult
  cases hseed : greedySeed (sortDesc words) m with
  | some w =>
    simp only [mkResult_subset, mkResult_used, mkResult_ticks, dfs, if_pos h1]
    exact ⟨by simp, by simp, by simp⟩
  | none =>
    simp only [mkResult_subset, mkResult_used, mkResult_ticks, dfs, if_pos h1]
    exact ⟨by simp, by simp, by simp⟩

theorem c6_immediate_deadline_witness :
    (find_best_cover [['A', 'B']] [('A', 1), ('B', 1)] 0
        fun k => if k = 0 then 0 else 1).subset =
      (seedResult [['A', 'B']] [('A', 1), ('B', 1)]).1 ∧
    (find_best_cover [['A', 'B']] [('A', 1), ('B', 1)] 0
        fun k => if k = 0 then 0 else 1).used =
      (seedResult [['A', 'B']] [('A', 1), ('B', 1)]).2 ∧
    (find_best_cover [['A', 'B']] [('A', 1), ('B', 1)] 0
        fun k => if k = 0 then 0 else 1).ticks = 2 :=
  c6_immediate_deadline [['A', 'B']] [('A', 1), ('B', 1)] 0 _
    (fun k hk => by
      have hne : ¬ k = 0 := by omega
      simp [hne])

/-- An empty pool affords no non-empty word. -/
theorem canAfford_nil_eq_false {w : Word} (h : w ≠ []) : canAfford [] w = false := by
  cases w with
  | nil => exact absurd rfl h
  | cons ch w' =>
    refine List.all_eq_false.mpr ⟨ch, List.mem_cons_self ch w', ?_⟩
    intro hle
    rw [decide_eq_true_eq] at hle
    have hpos : 0 < (ch :: w').count ch := by
      simp [List.count_cons_self]
    simp only [wCount, Counts.get] at hle
    omega

/-- With an empty pool every word in the loop fails the cheap length
pre-check, so the loop changes nothing. -/
theorem dfsLoop_empty_pool (d : Int) (c : Nat → Int) :
    ∀ (rest : List Word) (chosen : List Word) (used : Nat) (best : Best) (tick : Nat),
      (∀ w ∈ rest, w ≠ []) →
      dfsLoop d c rest [] chosen used best tick = (best, tick) := by
  intro rest
  induction rest with
  | nil =>
    intro chosen used best tick _
    exact dfsLoop_nil d c [] chosen used best tick
  | cons w rest ih =>
    intro chosen used best tick hne
    have hw : w ≠ [] := hne w (List.mem_cons_self w rest)
    have hlen : 0 < w.length := List.length_pos.mpr hw
    have h1 : (w.length : Int) > Counts.total [] := by
      simp only [Counts.total, List.map_nil, List.sum_nil]
      exact_mod_cast hlen
    rw [dfsLoop_cons_long h1]
    exact ih chosen used best tick fun x hx => hne x (List.mem_cons_of_mem w hx)

/-- Claim C7 (confirmed): the embedded `find_best_cover` is a total function
and, in the two boundary cases the spec names, behaves as stated: an empty
candidate list yields the empty subset with zero letters used (there is no
affordable seed), and an empty pool with non-empty candidate words also
yields the empty subset with zero letters used. -/
theorem c7_totality_empty :
    (∀ (m : Counts) (T : Int) (c : Nat → Int),
      (find_best_cover [] m T c).subset = [] ∧ (find_best_cover [] m T c).used = 0) ∧
    (∀ (words : List Word) (T : Int) (c : Nat → Int), (∀ w ∈ words, w ≠ []) →
      (find_best_cover words [] T c).subset = [] ∧ (find_best_cover words [] T c).used = 0) := by
  constructor
  · intro m T c
    have hred : find_best_cover [] m T c = mkResult m (dfs (c 0 + T) c [] m [] 0 ⟨0, []⟩ 1) :=
      rfl
    rw [hred]
    simp only [mkResult_subset, mkResult_used, dfs]
    constructor <;> (split_ifs <;> rfl)
  · intro words T c hne
    have hne' : ∀ w ∈ sortDesc words, w ≠ [] := fun w hw =>
      hne w ((sortDesc_perm words).mem_iff.mp hw)
    unfold find_best_cover
    cases hseed : greedySeed (sortDesc words) [] with
    | some w =>
      have hA : canAfford [] w = true := List.find?_some
        (show (sortDesc words).find? (fun w => canAfford [] w) = some w from hseed)
      have hmem : w ∈ sortDesc words := List.mem_of_find?_eq_some
        (show (sortDesc words).find? (fun w => canAfford [] w) = some w from hseed)
      rw [canAfford_nil_eq_false (hne' w hmem)] at hA
      cases hA
    | none =>
      simp only [mkResult_subset, mkResult_used, dfs]
      constructor <;>
        · split_ifs <;> first
            | rfl
            | (rw [dfsLoop_empty_pool (c 0 + T) c (sortDesc words) [] 0 _ 2 hne'])

theorem c7_totality_empty_witness :
    ((find_best_cover [] [('A', 1)] 5 fun _ => 0).subset = [] ∧
      (find_best_cover [] [('A', 1)] 5 fun _ => 0).used = 0) ∧
    ((find_best_cover [['A', 'B']] [] 5 fun _ => 0).subset = [] ∧
      (find_best_cover [['A', 'B']] [] 5 fun _ => 0).used = 0) :=
  ⟨c7_totality_empty.1 [('A', 1)] 5 (fun _ => 0),
   c7_totality_empty.2 [['A', 'B']] 5 (fun _ => 0) (by decide)⟩

/-- Claim C8 (confirmed): the list the search runs over is the candidate
list sorted by descending length with ties kept in arrival order: `sortDesc`
(the list handed to the suffix bound and to the DFS by `find_best_cover`) is
a permutation of the input, is sorted so that no word is followed by a
longer one, and keeps the words of each fixed length in their original
relative order (stability). -/
theorem c8_sort_spec (ws : List Word) :
    (sortDesc ws).Perm ws ∧
    (sortDesc ws).Sorted byLenDesc ∧
    ∀ k, (sortDesc ws).filter (fun w => w.length == k) =
      ws.filter (fun w => w.length == k) :=
  ⟨sortDesc_perm ws, sortDesc_sorted ws, fun k => filter_sortDesc_len ws k⟩

/-- Claim C9 (confirmed): two runs on identical inputs whose deadlines never
fire (every clock reading during the search stays at or below the deadline)
return identical results, whatever the two clocks read: the result is
independent of wall-clock timing once the deadline is not the limiting
factor. -/
theorem c9_deterministic (words : List Word) (m : Counts) (T : Int) (c1 c2 : Nat → Int)
    (H1 : ∀ k, 1 ≤ k → c1 k ≤ c1 0 + T) (H2 : ∀ k, 1 ≤ k → c2 k ≤ c2 0 + T) :
    find_best_cover words m T c1 = find_best_cover words m T c2 := by
  unfold find_best_cover
  cases hseed : greedySeed (sortDesc words) m with
  | some w =>
    simp only [dfs_clock_eq (c1 0 + T) (c2 0 + T) c1 c2 H1 H2 (sortDesc words)
      (subtractWord m w) [w] w.length ⟨w.length, [w]⟩ 1 (le_refl 1)]
  | none =>
    simp only [dfs_clock_eq (c1 0 + T) (c2 0 + T) c1 c2 H1 H2 (sortDesc words)
      m [] 0 ⟨0, []⟩ 1 (le_refl 1)]

theorem c9_deterministic_witness :
    find_best_cover [['A', 'B']] [('A', 1), ('B', 1)] 50 (fun _ => 0) =
      find_best_cover [['A', 'B']] [('A', 1), ('B', 1)] 50 (fun k => ((min k 3 : Nat) : Int)) :=
  c9_deterministic [['A', 'B']] [('A', 1), ('B', 1)] 50 (fun _ => 0)
    (fun k => ((min k 3 : Nat) : Int))
    (fun k _ => by norm_num)
    (fun k _ => by
      have hm : min k 3 ≤ 3 := min_le_right k 3
      have hm0 : min 0 3 = 0 := by norm_num
      simp only [hm0]
      push_cast
      omega)

/-- Claim C10 (confirmed): the cheap length pre-check is sound — over a
duplicate-free pool with non-negative counts, a word longer than the total
remaining letters always fails the per-letter affordability check as well —
and consequently the whole solver returns exactly the same result as the
variant with the pre-check removed, on every such pool. -/
theorem c10_precheck_sound :
    (∀ (m : Counts) (w : Word), m.keyList.Nodup → (∀ ch, 0 ≤ m.get ch) →
      (w.length : Int) > m.total → canAfford m w = false) ∧
    (∀ (words : List Word) (m : Counts) (T : Int) (c : Nat → Int), WfPool m →
      find_best_cover words m T c = find_best_cover_np words m T c) := by
  constructor
  · intro m w hnd hN hL
    exact canAfford_eq_false_of_long hnd hN hL
  · intro words m T c hW
    unfold find_best_cover find_best_cover_np
    cases hseed : greedySeed (sortDesc words) m with
    | some w =>
      have hA : canAfford m w = true := List.find?_some
        (show (sortDesc words).find? (fun w => canAfford m w) = some w from hseed)
      simp only [dfs_np_eq (c 0 + T) c (sortDesc words) (subtractWord m w) [w] w.length
        ⟨w.length, [w]⟩ 1 (WfPool_subtractWord hW hA)]
    | none =>
      simp only [dfs_np_eq (c 0 + T) c (sortDesc words) m [] 0 ⟨0, []⟩ 1 hW]

theorem c10_precheck_sound_witness :
    canAfford [('A', 1)] ['A', 'A'] = false ∧
    find_best_cover [['A', 'A']] [('A', 1)] 9 (fun _ => 0) =
      find_best_cover_np [['A', 'A']] [('A', 1)] 9 (fun _ => 0) :=
  ⟨c10_precheck_sound.1 [('A', 1)] ['A', 'A'] (by decide)
      (by intro ch; simp only [Counts.get]; split_ifs <;> decide) (by decide),
   c10_precheck_sound.2 [['A', 'A']] [('A', 1)] 9 (fun _ => 0)
      ⟨by decide, by intro ch; simp only [Counts.get]; split_ifs <;> decide⟩⟩
